import Mathlib

/-!
Verification of the disk-scheduling engine of
`Advanced-Disk-Scheduling-Simulator` (`app.py`).

The embedding below translates the algorithmic core of `app.py`:
the four policies `fcfs`, `sstf`, `scan`, `c_scan`, the inline seek-cost
sums, and the metrics computed by the "Run Simulation" and
"Compare All Algorithms" handlers.  Python integers are `Int`
(arbitrary precision), Python lists are `List Int`, `sorted` is a stable
ascending sort, `list.remove` erases the first occurrence, and Python's
`min(..., key=...)` keeps the first element attaining the minimal key.
A division whose denominator is zero raises `ZeroDivisionError`, modelled
as an `Except` error value.
-/

namespace DiskSim

/-- Python `sorted(l)`: stable ascending sort of a list of ints. -/
def pySorted (l : List Int) : List Int := l.insertionSort (· ≤ ·)

/-- Translation of the inline cost sums
`sum(abs(order[i] - order[i-1]) for i in range(1, len(order)))`
(and the equivalent `for` loop in `c_scan`): the sum of absolute
differences of consecutive elements. -/
def seekSum : List Int → Int
  | a :: b :: rest => |b - a| + seekSum (b :: rest)
  | _ => 0

/-- The spec's index-wise formulation of SeekCost:
`sum of |VisitOrder[i] - VisitOrder[i-1]| over consecutive pairs`,
written with explicit positions, independently of `seekSum`. -/
def seekIdx (l : List Int) : Int :=
  ∑ i in Finset.range (l.length - 1), |l.getD (i + 1) 0 - l.getD i 0|

/-- `fcfs(requests, head)` from `app.py`:
`order = [head] + requests`, and the cost is the consecutive-difference sum. -/
def fcfs (requests : List Int) (head : Int) : List Int × Int :=
  let order := head :: requests
  (order, seekSum order)

/-- Python `min(reqs, key=lambda x: abs(x - current))` specialised to a
running best: scan the list left to right, replacing the best only on a
strictly smaller distance (so ties keep the earlier element). -/
def selMin (current best : Int) : List Int → Int
  | [] => best
  | x :: xs => selMin current (if |x - current| < |best - current| then x else best) xs

theorem selMin_mem (current : Int) : ∀ (best : Int) (l : List Int),
    selMin current best l ∈ best :: l := by
  intro best l
  induction l generalizing best with
  | nil => simp [selMin]
  | cons x xs ih =>
    simp only [selMin]
    split
    · have h := ih x
      rw [List.mem_cons] at h
      rcases h with h | h <;> simp [h]
    · have h := ih best
      rw [List.mem_cons] at h
      rcases h with h | h <;> simp [h]

/-- The `while reqs:` loop of `sstf`: repeatedly pick the nearest remaining
request (ties to the first in the current list order, exactly as Python's
`min`), remove its first occurrence (`reqs.remove(nearest)`), and recurse
from it. -/
def sstfGo : Nat → Int → List Int → List Int
  | 0, _, _ => []
  | _ + 1, _, [] => []
  | fuel + 1, current, r :: rs =>
    let nearest := selMin current r rs
    nearest :: sstfGo fuel nearest ((r :: rs).erase nearest)

/-- The loop runs once per request: removing the selected first occurrence
shrinks the list by exactly one, so `reqs.length` rounds suffice. -/
def sstfOrder (current : Int) (reqs : List Int) : List Int :=
  sstfGo reqs.length current reqs

theorem sstfOrder_nil (current : Int) : sstfOrder current [] = [] := rfl

theorem sstfOrder_cons (current r : Int) (rs : List Int) :
    sstfOrder current (r :: rs) =
      selMin current r rs ::
        sstfOrder (selMin current r rs) ((r :: rs).erase (selMin current r rs)) := by
  have hm : selMin current r rs ∈ r :: rs := selMin_mem current r rs
  have hlen : ((r :: rs).erase (selMin current r rs)).length = rs.length := by
    have := List.length_erase_add_one hm
    simp only [List.length_cons] at this
    omega
  simp only [sstfOrder, List.length_cons, sstfGo, hlen]

/-- `sstf(requests, head)` from `app.py`: greedily build the order from a
private copy of the request list, then sum the consecutive differences. -/
def sstf (requests : List Int) (head : Int) : List Int × Int :=
  let order := head :: sstfOrder head requests
  (order, seekSum order)

/-- `scan(requests, head, disk_size)` from `app.py`:
`left`/`right` partition around `head` (each sorted ascending), and
`order = [head] + right + [disk_size - 1] + left[::-1]`. -/
def scan (requests : List Int) (head : Int) (disk_size : Int) : List Int × Int :=
  let left := pySorted (requests.filter (fun r => r < head))
  let right := pySorted (requests.filter (fun r => head ≤ r))
  let order := head :: (right ++ [disk_size - 1] ++ left.reverse)
  (order, seekSum order)

/-- `c_scan(requests, head, disk_size)` from `app.py`: same partition, and
`order = [head] + right + [disk_size - 1, 0] + left`. -/
def c_scan (requests : List Int) (head : Int) (disk_size : Int) : List Int × Int :=
  let left := pySorted (requests.filter (fun r => r < head))
  let right := pySorted (requests.filter (fun r => head ≤ r))
  let order := head :: (right ++ [disk_size - 1, 0] ++ left)
  (order, seekSum order)

/-- The two error conditions the spec talks about: Python's
`ZeroDivisionError` (what an unguarded `/ 0` actually raises) and the
`EmptyInput` condition the spec asks for. -/
inductive PyError
  | zeroDivision
  | emptyInput
deriving DecidableEq

/-- Lines 105-106 of `app.py` (the "Run Simulation" handler):
`avg_seek = total / len(requests)` followed by
`throughput = len(requests) / total if total != 0 else 0`.
When `requests` is empty the first division raises `ZeroDivisionError`;
the throughput division is guarded by the `total != 0` test. -/
def runMetrics (total : Int) (requests : List Int) : Except PyError (ℚ × ℚ) :=
  if requests.length = 0 then .error .zeroDivision
  else
    .ok ((total : ℚ) / (requests.length : ℚ),
      if total ≠ 0 then (requests.length : ℚ) / (total : ℚ) else 0)

/-- One row of the comparison table built by the
"Compare All Algorithms" handler. -/
structure PolicyResult where
  name : String
  order : List Int
  total : Int
  avg : ℚ
  throughput : ℚ
deriving DecidableEq

/-- The four entries of the `algorithms` dict of `app.py`, dispatched by
name exactly as the handlers look them up. -/
def runPolicy (name : String) (requests : List Int) (head disk_size : Int) :
    List Int × Int :=
  if name = "FCFS" then fcfs requests head
  else if name = "SSTF" then sstf requests head
  else if name = "SCAN" then scan requests head disk_size
  else c_scan requests head disk_size

def policyNames : List String := ["FCFS", "SSTF", "SCAN", "C-SCAN"]

/-- Lines 123-136 of `app.py` (the "Compare All Algorithms" handler): the
loop computes every policy's order and total, then the table's
`Avg SeekTime` column divides each total by `len(request_list)` — with an
empty list that division raises `ZeroDivisionError` and the whole table
computation aborts; the `Throughput` column is guarded by
`if results[a] != 0 else 0`. -/
def compareAll (requests : List Int) (head disk_size : Int) :
    Except PyError (List PolicyResult) :=
  let entries := policyNames.map (fun n => (n, runPolicy n requests head disk_size))
  if requests.length = 0 then .error .zeroDivision
  else
    .ok (entries.map (fun e =>
      let total : Int := e.2.2
      { name := e.1
        order := e.2.1
        total := total
        avg := (total : ℚ) / (requests.length : ℚ)
        throughput :=
          if total ≠ 0 then (requests.length : ℚ) / (total : ℚ) else 0 }))

theorem seekSum_eq_seekIdx (l : List Int) : seekSum l = seekIdx l := by
  induction l with
  | nil => simp [seekSum, seekIdx]
  | cons a t ih =>
    cases t with
    | nil => simp [seekSum, seekIdx]
    | cons b rest =>
      rw [seekSum, ih]
      simp only [seekIdx, List.length_cons, Nat.add_sub_cancel]
      rw [Finset.sum_range_succ']
      simp only [List.getD_cons_succ, List.getD_cons_zero]
      ring

theorem pySorted_perm (l : List Int) : (pySorted l).Perm l :=
  List.perm_insertionSort _ l

theorem pySorted_sorted (l : List Int) : (pySorted l).Sorted (· ≤ ·) :=
  List.sorted_insertionSort _ l

theorem perm_filter_partition (head : Int) (l : List Int) :
    (l.filter (fun r => head ≤ r) ++ l.filter (fun r => r < head)).Perm l := by
  induction l with
  | nil => simp
  | cons x xs ih =>
    by_cases hx : head ≤ x
    · have hnlt : ¬ x < head := not_lt.mpr hx
      simp only [List.filter_cons, hx, hnlt, decide_True, decide_False, if_true,
        if_false, List.cons_append]
      exact ih.cons x
    · have hlt : x < head := not_le.mp hx
      simp only [List.filter_cons, hx, hlt, decide_True, decide_False, if_true,
        if_false]
      exact List.perm_middle.trans (ih.cons x)

theorem sstfOrder_perm_aux : ∀ (n : Nat) (current : Int) (reqs : List Int),
    reqs.length = n → (sstfOrder current reqs).Perm reqs := by
  intro n
  induction n with
  | zero =>
    intro current reqs h
    cases reqs with
    | nil => simp [sstfOrder_nil]
    | cons r rs => simp at h
  | succ n ih =>
    intro current reqs h
    cases reqs with
    | nil => simp at h
    | cons r rs =>
      rw [sstfOrder_cons]
      have hm := selMin_mem current r rs
      have hlen : ((r :: rs).erase (selMin current r rs)).length = n := by
        have := List.length_erase_add_one hm
        simp only [List.length_cons] at this h
        omega
      exact ((ih _ _ hlen).cons _).trans (List.perm_cons_erase hm).symm

theorem sstfOrder_perm (current : Int) (reqs : List Int) :
    (sstfOrder current reqs).Perm reqs :=
  sstfOrder_perm_aux reqs.length current reqs rfl

theorem selMin_le (current : Int) : ∀ (best : Int) (l : List Int) (x : Int),
    x ∈ best :: l → |selMin current best l - current| ≤ |x - current| := by
  intro best l
  induction l generalizing best with
  | nil =>
    intro x hx
    rw [List.mem_singleton] at hx
    simp [selMin, hx]
  | cons y ys ih =>
    intro x hx
    simp only [selMin]
    split
    · next hc =>
      rcases List.mem_cons.mp hx with h1 | hx2
      · calc |selMin current y ys - current| ≤ |y - current| :=
            ih y y (List.mem_cons_self y ys)
          _ ≤ |x - current| := by rw [h1]; exact le_of_lt hc
      · exact ih y x hx2
    · next hc =>
      rcases List.mem_cons.mp hx with h1 | hx2
      · rw [h1]; exact ih best best (List.mem_cons_self best ys)
      · rcases List.mem_cons.mp hx2 with h2 | hx3
        · rw [h2]
          exact le_trans (ih best best (List.mem_cons_self best ys)) (not_lt.mp hc)
        · exact ih best x (List.mem_cons_of_mem best hx3)

theorem selMin_first (current : Int) : ∀ (best : Int) (l : List Int),
    ∃ l1 l2, best :: l = l1 ++ selMin current best l :: l2 ∧
      ∀ x ∈ l1, |selMin current best l - current| < |x - current| := by
  intro best l
  induction l generalizing best with
  | nil => exact ⟨[], [], rfl, by simp⟩
  | cons y ys ih =>
    simp only [selMin]
    by_cases hc : |y - current| < |best - current|
    · rw [if_pos hc]
      obtain ⟨l1, l2, heq, hlt⟩ := ih y
      refine ⟨best :: l1, l2, by rw [List.cons_append, ← heq], ?_⟩
      intro x hx
      rcases List.mem_cons.mp hx with rfl | hx
      · exact lt_of_le_of_lt (selMin_le current y ys y (List.mem_cons_self y ys)) hc
      · exact hlt x hx
    · rw [if_neg hc]
      obtain ⟨l1, l2, heq, hlt⟩ := ih best
      cases l1 with
      | nil =>
        rw [List.nil_append] at heq
        injection heq with h1 h2
        exact ⟨[], y :: ys, by rw [List.nil_append, ← h1], by simp⟩
      | cons a t =>
        rw [List.cons_append] at heq
        injection heq with h1 h2
        have hbest : |selMin current best ys - current| < |best - current| := by
          have := hlt a (List.mem_cons_self a t)
          rwa [← h1] at this
        refine ⟨best :: y :: t, l2,
          by rw [List.cons_append, List.cons_append, ← h2], ?_⟩
        intro x hx
        rcases List.mem_cons.mp hx with hx1 | hx
        · rw [hx1]; exact hbest
        · rcases List.mem_cons.mp hx with hx2 | hx
          · rw [hx2]; exact lt_of_lt_of_le hbest (not_lt.mp hc)
          · exact hlt x (List.mem_cons_of_mem a hx)

theorem pySorted_reverse_sorted (l : List Int) :
    (pySorted l).reverse.Sorted (· ≥ ·) := by
  rw [List.Sorted, List.pairwise_reverse]
  exact pySorted_sorted l

/-- C3: SCAN returns `[head] + (requests >= head, ascending) + [disk_size - 1]
+ (requests < head, descending)`, with the boundary stop `disk_size - 1`
inserted unconditionally (in every case, including a coinciding request or an
empty right partition, since the equality below holds for all inputs), and its
seek cost is the sum of consecutive absolute differences of that order. -/
theorem scan_visit_order (requests : List Int) (head disk_size : Int) :
    ∃ R L : List Int,
      (scan requests head disk_size).1 = head :: (R ++ [disk_size - 1] ++ L) ∧
      R.Perm (requests.filter (fun r => head ≤ r)) ∧ R.Sorted (· ≤ ·) ∧
      L.Perm (requests.filter (fun r => r < head)) ∧ L.Sorted (· ≥ ·) ∧
      (scan requests head disk_size).2 = seekIdx (scan requests head disk_size).1 := by
  refine ⟨pySorted (requests.filter (fun r => head ≤ r)),
    (pySorted (requests.filter (fun r => r < head))).reverse,
    rfl, pySorted_perm _, pySorted_sorted _, ?_, pySorted_reverse_sorted _,
    seekSum_eq_seekIdx _⟩
  exact (List.reverse_perm _).trans (pySorted_perm _)

/-- C4: C-SCAN returns `[head] + (requests >= head, ascending) +
[disk_size - 1, 0] + (requests < head, ascending, not reversed)`, so both
boundary cylinders are visited and the low-end requests come after the jump
to 0 in ascending order; its seek cost is the sum of consecutive absolute
differences of that order. -/
theorem c_scan_visit_order (requests : List Int) (head disk_size : Int) :
    ∃ R L : List Int,
      (c_scan requests head disk_size).1 =
        head :: (R ++ [disk_size - 1, 0] ++ L) ∧
      R.Perm (requests.filter (fun r => head ≤ r)) ∧ R.Sorted (· ≤ ·) ∧
      L.Perm (requests.filter (fun r => r < head)) ∧ L.Sorted (· ≤ ·) ∧
      (c_scan requests head disk_size).2 =
        seekIdx (c_scan requests head disk_size).1 :=
  ⟨pySorted (requests.filter (fun r => head ≤ r)),
    pySorted (requests.filter (fun r => r < head)),
    rfl, pySorted_perm _, pySorted_sorted _, pySorted_perm _, pySorted_sorted _,
    seekSum_eq_seekIdx _⟩

/-- C6: FCFS is order-preserving: its visit order is exactly
`[head] + requests` (so the tail is the input unchanged), and its seek cost
is the sum of consecutive absolute differences over that order. -/
theorem fcfs_order_preserving (requests : List Int) (head : Int) :
    (fcfs requests head).1 = head :: requests ∧
    (fcfs requests head).1.tail = requests ∧
    (fcfs requests head).2 = seekIdx (fcfs requests head).1 :=
  ⟨rfl, rfl, seekSum_eq_seekIdx _⟩

/-- C5: SSTF starts at the head and repeatedly selects, from the requests
not yet serviced, one at minimal `|value - current|` — ties going to the value
occurring first in the remaining list's current order — removes its first
occurrence, and advances `current` to it; every input request appears exactly
once in the output (the tail of the visit order is a permutation of the
input), even under duplicate nearest-distance ties. -/
theorem sstf_greedy (requests : List Int) (head : Int) :
    (sstf requests head).1 = head :: sstfOrder head requests ∧
    (sstf requests head).1.tail.Perm requests ∧
    (∀ current r rs, sstfOrder current (r :: rs) =
        selMin current r rs ::
          sstfOrder (selMin current r rs) ((r :: rs).erase (selMin current r rs))) ∧
    (∀ current r rs x, x ∈ r :: rs →
        |selMin current r rs - current| ≤ |x - current|) ∧
    (∀ current r rs, ∃ l1 l2,
        r :: rs = l1 ++ selMin current r rs :: l2 ∧
        ∀ x ∈ l1, |selMin current r rs - current| < |x - current|) :=
  ⟨rfl, sstfOrder_perm head requests,
    fun current r rs => sstfOrder_cons current r rs,
    fun current r rs x hx => selMin_le current r rs x hx,
    fun current r rs => selMin_first current r rs⟩

theorem sstf_greedy_witness :
    (sstf [82, 170, 43] 50).1.tail.Perm [82, 170, 43] ∧
    |selMin 50 82 [170, 43] - 50| ≤ |(170 : Int) - 50| :=
  ⟨(sstf_greedy [82, 170, 43] 50).2.1,
    (sstf_greedy [82, 170, 43] 50).2.2.2.1 50 82 [170, 43] 170 (by decide)⟩

/-- C1 counterexample: SCAN on an empty request list with head 0 and disk
size 1 returns a visit order of length 2, not `len(requests) + 1 = 1` — the
unconditional boundary stop breaks the claimed invariant. -/
theorem visit_order_invariant_counterexample :
    (scan [] 0 1).1.length ≠ ([] : List Int).length + 1 := by decide

/-- C1 amended: FCFS and SSTF return a visit order of length
`len(requests) + 1` whose tail is a permutation of the requests; SCAN returns
length `len(requests) + 2` with the boundary `disk_size - 1` added to the
multiset, and C-SCAN returns length `len(requests) + 3` with both
`disk_size - 1` and `0` added. -/
theorem visit_order_length_multiset (requests : List Int) (head disk_size : Int) :
    ((fcfs requests head).1.length = requests.length + 1 ∧
      (fcfs requests head).1.tail.Perm requests) ∧
    ((sstf requests head).1.length = requests.length + 1 ∧
      (sstf requests head).1.tail.Perm requests) ∧
    ((scan requests head disk_size).1.length = requests.length + 2 ∧
      (scan requests head disk_size).1.tail.Perm ((disk_size - 1) :: requests)) ∧
    ((c_scan requests head disk_size).1.length = requests.length + 3 ∧
      (c_scan requests head disk_size).1.tail.Perm
        ((disk_size - 1) :: 0 :: requests)) := by
  have hsstf : (sstf requests head).1.tail.Perm requests :=
    sstfOrder_perm head requests
  have hscan : (scan requests head disk_size).1.tail.Perm
      ((disk_size - 1) :: requests) := by
    show (pySorted (requests.filter (fun r => head ≤ r)) ++
        [disk_size - 1] ++ (pySorted (requests.filter (fun r => r < head))).reverse).Perm _
    rw [List.append_assoc, List.singleton_append]
    refine List.perm_middle.trans (List.Perm.cons _ ?_)
    exact (((pySorted_perm _).append
      ((List.reverse_perm _).trans (pySorted_perm _))).trans
      (perm_filter_partition head requests))
  have hcscan : (c_scan requests head disk_size).1.tail.Perm
      ((disk_size - 1) :: 0 :: requests) := by
    show (pySorted (requests.filter (fun r => head ≤ r)) ++
        [disk_size - 1, 0] ++ pySorted (requests.filter (fun r => r < head))).Perm _
    have h1 : pySorted (requests.filter (fun r => head ≤ r)) ++
        [disk_size - 1, 0] ++ pySorted (requests.filter (fun r => r < head)) =
        pySorted (requests.filter (fun r => head ≤ r)) ++
          (disk_size - 1) :: (0 :: pySorted (requests.filter (fun r => r < head))) := by
      rw [List.append_assoc]; rfl
    rw [h1]
    refine List.perm_middle.trans (List.Perm.cons _ ?_)
    refine List.perm_middle.trans (List.Perm.cons _ ?_)
    exact ((pySorted_perm _).append (pySorted_perm _)).trans
      (perm_filter_partition head requests)
  refine ⟨⟨by simp [fcfs], List.Perm.refl _⟩, ⟨?_, hsstf⟩, ⟨?_, hscan⟩, ⟨?_, hcscan⟩⟩
  · have := hsstf.length_eq
    simp only [sstf, List.tail_cons] at this ⊢
    simp [this]
  · have := hscan.length_eq
    simp only [List.length_cons] at this
    have h2 : (scan requests head disk_size).1.length =
        (scan requests head disk_size).1.tail.length + 1 := rfl
    omega
  · have := hcscan.length_eq
    simp only [List.length_cons] at this
    have h2 : (c_scan requests head disk_size).1.length =
        (c_scan requests head disk_size).1.tail.length + 1 := rfl
    omega

/-- C2 counterexample: SCAN on an empty request list with head 50 and disk
size 200 returns `([50, 199], 149)`, not `([50], 0)`. -/
theorem empty_requests_counterexample :
    ¬ ((scan [] 50 200).1 = [50] ∧ (scan [] 50 200).2 = 0) := by decide

/-- C2 amended: on an empty request list FCFS and SSTF return `([head], 0)`,
but SCAN still visits the boundary, returning
`([head, disk_size - 1], |disk_size - 1 - head|)`, and C-SCAN visits both
boundaries, returning `([head, disk_size - 1, 0],
|disk_size - 1 - head| + |0 - (disk_size - 1)|)`. -/
theorem empty_requests_behavior (head disk_size : Int) :
    fcfs [] head = ([head], 0) ∧
    sstf [] head = ([head], 0) ∧
    scan [] head disk_size = ([head, disk_size - 1], |disk_size - 1 - head|) ∧
    c_scan [] head disk_size =
      ([head, disk_size - 1, 0],
        |disk_size - 1 - head| + |0 - (disk_size - 1)|) := by
  refine ⟨rfl, rfl, ?_, ?_⟩
  · simp [scan, pySorted, seekSum]
  · simp [c_scan, pySorted, seekSum]

/-- C7 counterexample: with an empty request list (here after FCFS, whose
total on the spec scenario would be 642) the metrics step fails with the
generic `ZeroDivisionError` division fault, not an `EmptyInput` condition. -/
theorem run_metrics_empty_counterexample :
    runMetrics 642 [] = Except.error PyError.zeroDivision ∧
    runMetrics 642 [] ≠ Except.error PyError.emptyInput := by
  refine ⟨rfl, ?_⟩
  intro h
  simp [runMetrics] at h

/-- C7 amended: with an empty request list the derived-metrics computation
of the "Run Simulation" handler fails with the generic division fault
(`ZeroDivisionError` from `avg_seek = total / len(requests)`); no
`EmptyInput` condition exists in the code. -/
theorem run_metrics_empty (total : Int) (requests : List Int)
    (h : requests = []) :
    runMetrics total requests = Except.error PyError.zeroDivision ∧
    runMetrics total requests ≠ Except.error PyError.emptyInput := by
  subst h
  refine ⟨rfl, ?_⟩
  intro hcontra
  simp [runMetrics] at hcontra

theorem run_metrics_empty_witness :
    runMetrics 7 [] = Except.error PyError.zeroDivision ∧
    runMetrics 7 [] ≠ Except.error PyError.emptyInput :=
  run_metrics_empty 7 [] rfl

/-- C8 counterexample: on an empty request list the comparison's metrics
step fails and the whole comparison result is a single division-fault error:
no policy entry at all is returned (`toOption = none`), even though every
policy's own order and total are computable. -/
theorem compare_partial_failure_counterexample :
    compareAll [] 50 200 = Except.error PyError.zeroDivision ∧
    (compareAll [] 50 200).toOption = none :=
  ⟨rfl, rfl⟩

/-- C8 amended: the comparison is all-or-nothing. If the request list is
empty, the shared metrics step's division fault aborts the whole comparison
and no per-entry results or error markers are produced; otherwise all four
policies' entries are returned, each with its visit order, total, average
`total / len(requests)`, and throughput `len(requests) / total` (0 when the
total is 0). -/
theorem compare_all_or_nothing (requests : List Int) (head disk_size : Int) :
    (requests = [] →
      compareAll requests head disk_size = Except.error PyError.zeroDivision) ∧
    (requests ≠ [] → ∃ l,
      compareAll requests head disk_size = Except.ok l ∧
      l.map (fun e => e.name) = policyNames ∧
      ∀ e ∈ l,
        e.order = (runPolicy e.name requests head disk_size).1 ∧
        e.total = (runPolicy e.name requests head disk_size).2 ∧
        e.avg = (e.total : ℚ) / (requests.length : ℚ) ∧
        e.throughput =
          if e.total ≠ 0 then (requests.length : ℚ) / (e.total : ℚ) else 0) := by
  constructor
  · intro h
    subst h
    rfl
  · intro h
    have hlen : ¬ requests.length = 0 := by
      simpa using fun hh => h (List.length_eq_zero.mp hh)
    refine ⟨(policyNames.map
        (fun n => (n, runPolicy n requests head disk_size))).map
          (fun (e : String × List Int × Int) =>
            { name := e.1
              order := e.2.1
              total := e.2.2
              avg := (e.2.2 : ℚ) / (requests.length : ℚ)
              throughput :=
                if e.2.2 ≠ 0 then (requests.length : ℚ) / (e.2.2 : ℚ)
                else 0 }), ?_, ?_, ?_⟩
    · simp only [compareAll, if_neg hlen]
    · rfl
    · intro e he
      simp only [policyNames, List.map_cons, List.map_nil, List.mem_cons,
        List.not_mem_nil, or_false] at he
      rcases he with rfl | rfl | rfl | rfl <;>
        exact ⟨rfl, rfl, rfl, rfl⟩

theorem compare_all_or_nothing_witness :
    compareAll [] 7 100 = Except.error PyError.zeroDivision ∧
    ∃ l, compareAll [50] 7 100 = Except.ok l ∧
      l.map (fun e => e.name) = policyNames ∧
      ∀ e ∈ l,
        e.order = (runPolicy e.name [50] 7 100).1 ∧
        e.total = (runPolicy e.name [50] 7 100).2 ∧
        e.avg = (e.total : ℚ) / (([50] : List Int).length : ℚ) ∧
        e.throughput =
          if e.total ≠ 0 then (([50] : List Int).length : ℚ) / (e.total : ℚ)
          else 0 :=
  ⟨(compare_all_or_nothing [] 7 100).1 rfl,
    (compare_all_or_nothing [50] 7 100).2 (by decide)⟩

/-- C9: when the total seek cost is 0 and the request list is nonempty, the
derived throughput is 0 (the `total != 0` guard takes the `else 0` branch)
and no division fault is raised, both in the "Run Simulation" metrics and in
every entry of the comparison table. -/
theorem throughput_sentinel (total : Int) (requests : List Int)
    (head disk_size : Int) (h0 : total = 0) (hn : requests ≠ []) :
    runMetrics total requests = Except.ok (0, 0) ∧
    (∀ l, compareAll requests head disk_size = Except.ok l →
      ∀ e ∈ l, e.total = 0 → e.throughput = 0) := by
  have hlen : ¬ requests.length = 0 := by
    simpa using fun hh => hn (List.length_eq_zero.mp hh)
  constructor
  · subst h0
    simp [runMetrics, hlen]
  · intro l hl e he h0e
    simp only [compareAll, if_neg hlen, Except.ok.injEq] at hl
    subst hl
    obtain ⟨x, _, rfl⟩ := List.mem_map.mp he
    have hx : x.2.2 = 0 := by simpa using h0e
    simp [hx]

theorem throughput_sentinel_witness :
    runMetrics 0 [50] = Except.ok (0, 0) ∧
    (∀ l, compareAll [50] 50 200 = Except.ok l →
      ∀ e ∈ l, e.total = 0 → e.throughput = 0) :=
  throughput_sentinel 0 [50] 50 200 rfl (by decide)

/-! Heap model for the mutation claim: Python lists are objects on a heap,
addressed by index; `requests.copy()` allocates a fresh cell holding the same
value, and `reqs.remove(...)` writes the shrunk list back into the cell it
was called on.  This makes the aliasing structure of `app.py` explicit, so
"the caller's list is unchanged" is a statement about the final heap. -/

abbrev Heap := List (List Int)

def Heap.read (h : Heap) (a : Nat) : List Int := h.getD a []

def Heap.write (h : Heap) (a : Nat) (v : List Int) : Heap := h.set a v

def Heap.alloc (h : Heap) (v : List Int) : Heap × Nat := (h ++ [v], h.length)

theorem Heap.length_write (h : Heap) (a : Nat) (v : List Int) :
    (h.write a v).length = h.length := List.length_set h a v

theorem Heap.read_write_self (h : Heap) (a : Nat) (v : List Int)
    (ha : a < h.length) : (h.write a v).read a = v := by
  simp [Heap.read, Heap.write, List.getD, List.getElem?_set_eq_of_lt v ha]

theorem Heap.read_write_ne (h : Heap) (a b : Nat) (v : List Int)
    (hne : b ≠ a) : (h.write a v).read b = h.read b := by
  simp [Heap.read, Heap.write, List.getD, List.getElem?_set_ne (Ne.symm hne)]

theorem Heap.read_alloc_fresh (h : Heap) (v : List Int) :
    (h.alloc v).1.read (h.alloc v).2 = v := by
  simp [Heap.alloc, Heap.read, List.getD_append_right h [v] [] h.length le_rfl]

theorem Heap.read_alloc_old (h : Heap) (v : List Int) (a : Nat)
    (ha : a < h.length) : (h.alloc v).1.read a = h.read a := by
  show (h ++ [v]).getD a [] = h.getD a []
  exact List.getD_append h [v] [] a ha

/-- The `while reqs:` loop of `sstf` under heap semantics: every iteration
reads the working cell `ra`, selects the nearest request, and writes back the
list with that value's first occurrence removed (`reqs.remove(nearest)`).
Only cell `ra` is ever written.  As in `sstfOrder`, the loop runs at most
once per element of the working list. -/
def sstfLoopH : Nat → Heap → Nat → Int → Heap × List Int
  | 0, h, _, _ => (h, [])
  | fuel + 1, h, ra, current =>
    match h.read ra with
    | [] => (h, [])
    | r :: rs =>
      let nearest := selMin current r rs
      let h2 := h.write ra ((r :: rs).erase nearest)
      let res := sstfLoopH fuel h2 ra nearest
      (res.1, nearest :: res.2)

/-- `sstf` under heap semantics: `a` is the address of the caller's request
list; `reqs = requests.copy()` allocates a private cell, and the loop then
works on that cell only. -/
def sstfH (h : Heap) (a : Nat) (head : Int) : Heap × (List Int × Int) :=
  let requests := h.read a
  let alloc := h.alloc requests
  let run := sstfLoopH requests.length alloc.1 alloc.2 head
  let order := head :: run.2
  (run.1, (order, seekSum order))

/-- `fcfs` under heap semantics: its body (`[head] + requests` and a sum over
it) only builds new lists, so the heap is unchanged. -/
def fcfsH (h : Heap) (a : Nat) (head : Int) : Heap × (List Int × Int) :=
  (h, fcfs (h.read a) head)

/-- `scan` under heap semantics: list comprehensions and `sorted` build new
lists, so the heap is unchanged. -/
def scanH (h : Heap) (a : Nat) (head disk_size : Int) :
    Heap × (List Int × Int) :=
  (h, scan (h.read a) head disk_size)

/-- `c_scan` under heap semantics: list comprehensions and `sorted` build new
lists, so the heap is unchanged. -/
def c_scanH (h : Heap) (a : Nat) (head disk_size : Int) :
    Heap × (List Int × Int) :=
  (h, c_scan (h.read a) head disk_size)

theorem sstfLoopH_run : ∀ (fuel : Nat) (h : Heap) (ra : Nat) (current : Int),
    ra < h.length → (h.read ra).length = fuel →
    (sstfLoopH fuel h ra current).2 = sstfOrder current (h.read ra) ∧
    (sstfLoopH fuel h ra current).1.length = h.length ∧
    ∀ b, b ≠ ra → (sstfLoopH fuel h ra current).1.read b = h.read b := by
  intro fuel
  induction fuel with
  | zero =>
    intro h ra current ha hf
    have hnil : h.read ra = [] := List.length_eq_zero.mp hf
    simp [sstfLoopH, hnil, sstfOrder_nil]
  | succ n ih =>
    intro h ra current ha hf
    cases hr : h.read ra with
    | nil => rw [hr] at hf; simp at hf
    | cons r rs =>
      have hm := selMin_mem current r rs
      have ha2 : ra < (h.write ra ((r :: rs).erase (selMin current r rs))).length := by
        rw [Heap.length_write]; exact ha
      have hread2 : (h.write ra ((r :: rs).erase (selMin current r rs))).read ra =
          (r :: rs).erase (selMin current r rs) :=
        Heap.read_write_self h ra _ ha
      have hlen2 : ((h.write ra ((r :: rs).erase (selMin current r rs))).read ra).length
          = n := by
        rw [hread2]
        have := List.length_erase_add_one hm
        rw [hr] at hf
        simp only [List.length_cons] at this hf
        omega
      obtain ⟨ho, hl, hframe⟩ := ih _ ra (selMin current r rs) ha2 hlen2
      simp only [sstfLoopH, hr]
      refine ⟨?_, ?_, ?_⟩
      · rw [sstfOrder_cons, ho, hread2]
      · rw [hl, Heap.length_write]
      · intro b hb
        rw [hframe b hb, Heap.read_write_ne h ra b _ hb]

/-- C10: no policy mutates the caller's request list.  Under the heap model
FCFS, SCAN, and C-SCAN return the heap unchanged; SSTF allocates a private
copy (`requests.copy()`), performs all of its incremental removals on that
copy, leaves the caller's cell intact, and computes exactly the pure `sstf`
result from it. -/
theorem no_caller_mutation (h : Heap) (a : Nat) (head disk_size : Int)
    (ha : a < h.length) :
    (fcfsH h a head).1 = h ∧
    (scanH h a head disk_size).1 = h ∧
    (c_scanH h a head disk_size).1 = h ∧
    (sstfH h a head).1.read a = h.read a ∧
    (sstfH h a head).2 = sstf (h.read a) head := by
  have hfresh : (h.alloc (h.read a)).1.read (h.alloc (h.read a)).2 = h.read a :=
    Heap.read_alloc_fresh h (h.read a)
  have hra : (h.alloc (h.read a)).2 < (h.alloc (h.read a)).1.length := by
    simp [Heap.alloc]
  have hflen : ((h.alloc (h.read a)).1.read (h.alloc (h.read a)).2).length =
      (h.read a).length := by rw [hfresh]
  obtain ⟨ho, _, hframe⟩ :=
    sstfLoopH_run (h.read a).length (h.alloc (h.read a)).1
      (h.alloc (h.read a)).2 head hra hflen
  have hb : a ≠ (h.alloc (h.read a)).2 := by
    simp only [Heap.alloc]
    omega
  refine ⟨rfl, rfl, rfl, ?_, ?_⟩
  · show (sstfLoopH (h.read a).length (h.alloc (h.read a)).1
        (h.alloc (h.read a)).2 head).1.read a = h.read a
    rw [hframe a hb, Heap.read_alloc_old h (h.read a) a ha]
  · show (head :: (sstfLoopH (h.read a).length (h.alloc (h.read a)).1
          (h.alloc (h.read a)).2 head).2,
        seekSum (head :: (sstfLoopH (h.read a).length (h.alloc (h.read a)).1
          (h.alloc (h.read a)).2 head).2)) = sstf (h.read a) head
    rw [ho, hfresh]
    rfl

theorem no_caller_mutation_witness :
    (fcfsH [[82, 170]] 0 50).1 = [[82, 170]] ∧
    (scanH [[82, 170]] 0 50 200).1 = [[82, 170]] ∧
    (c_scanH [[82, 170]] 0 50 200).1 = [[82, 170]] ∧
    (sstfH [[82, 170]] 0 50).1.read 0 = Heap.read [[82, 170]] 0 ∧
    (sstfH [[82, 170]] 0 50).2 = sstf (Heap.read [[82, 170]] 0) 50 :=
  no_caller_mutation [[82, 170]] 0 50 200 (by decide)

end DiskSim
